import Mathlib

/-!
Verification of the telugu-annotator core (`src/app.py`) against its
natural-language specification.

The Python code is shallowly embedded:
  * Python strings are Lean `String`s; per-character operations work on
    `String.data : List Char`.
  * `str.lower()` is modelled character-wise by `Char.toLower` (the source
    only relies on case folding for comparison).
  * `str.strip()` / `str.split()` (no argument, i.e. split on whitespace
    runs, discarding empty fields) are modelled on `List Char` by `pyStrip`
    and `pySplit`, with whitespace being the six ASCII whitespace
    characters Python's `str.isspace` recognises in ASCII range.
  * pandas DataFrames holding the two CSV collections are modelled as
    `List Row` (pending collection, file `new_annotations.csv`) and
    `List RepoRow` (repository collection, file `repository.csv`), in file
    order; `df[mask]` is `List.filter`, `pd.concat` is `List.append`.
  * the external transliteration library (`indic_transliteration`'s
    `transliterate(text, TELUGU, ITRANS)`) is an opaque parameter
    `translit : String → Option String`; `none` models the call raising
    an exception (caught by the bare `except:` in `to_roman`), `some r`
    models it returning `r`.
-/

namespace App

/-- Whitespace as recognised by Python's argument-less `str.split()` and
`str.strip()` (restricted to the ASCII whitespace characters). -/
def pyIsSpace (c : Char) : Bool :=
  c = ' ' || c = '\t' || c = '\n' || c = '\r' || c = '\x0b' || c = '\x0c'

/-- Python `text.strip()`: drop leading and trailing whitespace. -/
def pyStrip (l : List Char) : List Char :=
  ((l.dropWhile pyIsSpace).reverse.dropWhile pyIsSpace).reverse

/-- Worker for `pySplit`; `acc` holds the (reversed) current word. -/
def splitAux : List Char → List Char → List (List Char)
  | [], acc => if acc.isEmpty then [] else [acc.reverse]
  | c :: cs, acc =>
    if pyIsSpace c then
      if acc.isEmpty then splitAux cs [] else acc.reverse :: splitAux cs []
    else
      splitAux cs (c :: acc)

/-- Python `text.split()` with no separator: split on runs of whitespace,
discarding empty fields. -/
def pySplit (l : List Char) : List (List Char) :=
  splitAux l []

/-- Python `" ".join(words)`. -/
def joinSp : List (List Char) → List Char
  | [] => []
  | [t] => t
  | t :: ts => t ++ ' ' :: joinSp ts

/-- `normalize` of `app.py` (line 45), on the character list:
`" ".join(str(text).lower().strip().split())`. -/
def normChars (l : List Char) : List Char :=
  joinSp (pySplit (pyStrip (l.map Char.toLower)))

/-- `normalize` of `app.py` (line 45): lowercase, strip, collapse internal
whitespace runs to single spaces (the spec's `normalize_plain`). -/
def normalize (text : String) : String :=
  ⟨normChars text.data⟩

/-- Python `text.lower()` as used in `to_roman`. -/
def stringLower (s : String) : String :=
  ⟨s.data.map Char.toLower⟩

/-! ### Character-level lemmas -/

theorem char_toNat_ofNat_valid {n : Nat} (h : n < 55296) : (Char.ofNat n).toNat = n := by
  have hv : n.isValidChar := Or.inl h
  rw [Char.ofNat, dif_pos hv]
  rfl

theorem toLower_eq_of_upper {c : Char} (h : 65 ≤ c.toNat ∧ c.toNat ≤ 90) :
    c.toLower = Char.ofNat (c.toNat + 32) := by
  simp only [Char.toLower]
  rw [if_pos ⟨h.1, h.2⟩]

theorem toLower_eq_of_not_upper {c : Char} (h : ¬(65 ≤ c.toNat ∧ c.toNat ≤ 90)) :
    c.toLower = c := by
  simp only [Char.toLower]
  rw [if_neg]
  exact fun hc => h ⟨hc.1, hc.2⟩

theorem toLower_idem (c : Char) : c.toLower.toLower = c.toLower := by
  by_cases h : 65 ≤ c.toNat ∧ c.toNat ≤ 90
  · rw [toLower_eq_of_upper h]
    have h2 : (Char.ofNat (c.toNat + 32)).toNat = c.toNat + 32 :=
      char_toNat_ofNat_valid (by omega)
    rw [toLower_eq_of_not_upper (by rw [h2]; omega)]
  · rw [toLower_eq_of_not_upper h, toLower_eq_of_not_upper h]

/-! ### Splitting lemmas -/

theorem splitAux_nil (acc : List Char) :
    splitAux [] acc = if acc.isEmpty then [] else [acc.reverse] := rfl

theorem splitAux_append_word (t : List Char) (cs acc : List Char)
    (h : ∀ c ∈ t, pyIsSpace c = false) :
    splitAux (t ++ cs) acc = splitAux cs (t.reverse ++ acc) := by
  induction t generalizing acc with
  | nil => simp
  | cons c t ih =>
    have hc : pyIsSpace c = false := h c (by simp)
    simp only [List.cons_append, splitAux, hc, Bool.false_eq_true, if_false, List.append_eq]
    rw [ih (c :: acc) (fun x hx => h x (by simp [hx]))]
    simp

theorem splitAux_allspace (ws : List Char) (acc : List Char)
    (h : ∀ c ∈ ws, pyIsSpace c = true) :
    splitAux ws acc = if acc.isEmpty then [] else [acc.reverse] := by
  induction ws generalizing acc with
  | nil => rfl
  | cons c ws ih =>
    have hc : pyIsSpace c = true := h c (by simp)
    have hrec := ih [] (fun x hx => h x (by simp [hx]))
    by_cases ha : acc.isEmpty
    · simp only [splitAux, hc, if_pos ha, ha, if_true]
      simpa using hrec
    · simp only [splitAux, hc, if_neg ha, ha, if_false]
      rw [hrec]
      simp

theorem splitAux_dropWhile (l : List Char) :
    splitAux (l.dropWhile pyIsSpace) [] = splitAux l [] := by
  induction l with
  | nil => rfl
  | cons c l ih =>
    by_cases hc : pyIsSpace c
    · rw [List.dropWhile_cons_of_pos hc, ih]
      simp [splitAux, hc]
    · rw [List.dropWhile_cons_of_neg hc]

theorem splitAux_append_allspace (l ws : List Char)
    (h : ∀ c ∈ ws, pyIsSpace c = true) (acc : List Char) :
    splitAux (l ++ ws) acc = splitAux l acc := by
  induction l generalizing acc with
  | nil =>
    rw [List.nil_append, splitAux_allspace ws acc h, splitAux_nil]
  | cons c l ih =>
    by_cases hc : pyIsSpace c
    · simp only [List.cons_append, splitAux, hc, if_true, List.append_eq, ih]
    · simp only [List.cons_append, splitAux, hc, Bool.false_eq_true, if_false,
        List.append_eq, ih]

theorem splitAux_tokens : ∀ (l acc : List Char), (∀ c ∈ acc, pyIsSpace c = false) →
    ∀ t ∈ splitAux l acc, t ≠ [] ∧ ∀ c ∈ t, pyIsSpace c = false := by
  intro l
  induction l with
  | nil =>
    intro acc hacc t ht
    rw [splitAux_nil] at ht
    by_cases ha : acc.isEmpty
    · simp [ha] at ht
    · rw [if_neg ha] at ht
      have heq := List.mem_singleton.mp ht
      subst heq
      refine ⟨by simpa using fun h => ha (by simp [h, List.isEmpty_iff]), ?_⟩
      intro c hc
      exact hacc c (by simpa using hc)
  | cons c l ih =>
    intro acc hacc t ht
    by_cases hc : pyIsSpace c
    · simp only [splitAux, hc, if_true] at ht
      by_cases ha : acc.isEmpty
      · rw [if_pos ha] at ht
        exact ih [] (by simp) t ht
      · rw [if_neg ha] at ht
        rcases List.mem_cons.mp ht with h1 | h1
        · subst h1
          refine ⟨by simpa using fun h => ha (by simp [h, List.isEmpty_iff]), ?_⟩
          intro x hx
          exact hacc x (by simpa using hx)
        · exact ih [] (by simp) t h1
    · simp only [splitAux, hc, Bool.false_eq_true, if_false] at ht
      refine ih (c :: acc) ?_ t ht
      intro x hx
      rcases List.mem_cons.mp hx with h1 | h1
      · subst h1
        simpa using hc
      · exact hacc x h1

theorem pySplit_joinSp (ts : List (List Char))
    (h1 : ∀ t ∈ ts, t ≠ [])
    (h2 : ∀ t ∈ ts, ∀ c ∈ t, pyIsSpace c = false) :
    pySplit (joinSp ts) = ts := by
  induction ts with
  | nil => rfl
  | cons t ts ih =>
    have ht1 : t ≠ [] := h1 t (by simp)
    have ht2 : ∀ c ∈ t, pyIsSpace c = false := h2 t (by simp)
    have htr : ¬ t.reverse.isEmpty := by
      simpa [List.isEmpty_iff] using ht1
    cases ts with
    | nil =>
      show splitAux t [] = [t]
      have := splitAux_append_word t [] [] ht2
      rw [List.append_nil] at this
      rw [this, splitAux_nil]
      simp [htr]
    | cons u us =>
      show splitAux (t ++ ' ' :: joinSp (u :: us)) [] = t :: u :: us
      rw [splitAux_append_word t _ [] ht2, List.append_nil]
      have hsp : pyIsSpace ' ' = true := by decide
      simp only [splitAux, hsp, if_true, if_neg htr, List.reverse_reverse]
      have ihr := ih (fun x hx => h1 x (by simp [hx])) (fun x hx => h2 x (by simp [hx]))
      rw [show splitAux (joinSp (u :: us)) [] = pySplit (joinSp (u :: us)) from rfl, ihr]

theorem pySplit_pyStrip (l : List Char) : pySplit (pyStrip l) = pySplit l := by
  have hm : l.dropWhile pyIsSpace =
      ((l.dropWhile pyIsSpace).reverse.dropWhile pyIsSpace).reverse ++
        ((l.dropWhile pyIsSpace).reverse.takeWhile pyIsSpace).reverse := by
    conv_lhs => rw [← List.reverse_reverse (l.dropWhile pyIsSpace),
      ← List.takeWhile_append_dropWhile (p := pyIsSpace)
        (l := (l.dropWhile pyIsSpace).reverse)]
    rw [List.reverse_append]
  have hws : ∀ c ∈ ((l.dropWhile pyIsSpace).reverse.takeWhile pyIsSpace).reverse,
      pyIsSpace c = true := by
    intro c hc
    exact List.mem_takeWhile_imp (List.mem_reverse.mp hc)
  show splitAux (((l.dropWhile pyIsSpace).reverse.dropWhile pyIsSpace).reverse) [] =
    splitAux l []
  rw [← splitAux_append_allspace _ _ hws, ← hm, splitAux_dropWhile]

theorem mem_pyStrip {l : List Char} {c : Char} (h : c ∈ pyStrip l) : c ∈ l := by
  have h1 : c ∈ (l.dropWhile pyIsSpace).reverse.dropWhile pyIsSpace :=
    List.mem_reverse.mp h
  have h2 : c ∈ (l.dropWhile pyIsSpace).reverse :=
    (List.dropWhile_sublist pyIsSpace).subset h1
  exact (List.dropWhile_sublist pyIsSpace).subset (List.mem_reverse.mp h2)

theorem splitAux_token_mem : ∀ (l acc : List Char) (t : List Char), t ∈ splitAux l acc →
    ∀ c ∈ t, c ∈ l ∨ c ∈ acc := by
  intro l
  induction l with
  | nil =>
    intro acc t ht c hc
    rw [splitAux_nil] at ht
    by_cases ha : acc.isEmpty
    · simp [ha] at ht
    · rw [if_neg ha] at ht
      have heq := List.mem_singleton.mp ht
      subst heq
      exact Or.inr (List.mem_reverse.mp hc)
  | cons b l ih =>
    intro acc t ht c hc
    by_cases hb : pyIsSpace b
    · simp only [splitAux, hb, if_true] at ht
      by_cases ha : acc.isEmpty
      · rw [if_pos ha] at ht
        rcases ih [] t ht c hc with h | h
        · exact Or.inl (by simp [h])
        · simp at h
      · rw [if_neg ha] at ht
        rcases List.mem_cons.mp ht with h1 | h1
        · subst h1
          exact Or.inr (List.mem_reverse.mp hc)
        · rcases ih [] t h1 c hc with h | h
          · exact Or.inl (by simp [h])
          · simp at h
    · simp only [splitAux, hb, Bool.false_eq_true, if_false] at ht
      rcases ih (b :: acc) t ht c hc with h | h
      · exact Or.inl (by simp [h])
      · rcases List.mem_cons.mp h with h1 | h1
        · exact Or.inl (by simp [h1])
        · exact Or.inr h1

theorem mem_joinSp : ∀ (ts : List (List Char)) (c : Char), c ∈ joinSp ts →
    c = ' ' ∨ ∃ t ∈ ts, c ∈ t := by
  intro ts
  induction ts with
  | nil => intro c hc; simp [joinSp] at hc
  | cons t ts ih =>
    intro c hc
    cases ts with
    | nil =>
      exact Or.inr ⟨t, by simp, hc⟩
    | cons u us =>
      rcases List.mem_append.mp hc with h | h
      · exact Or.inr ⟨t, by simp, h⟩
      · rcases List.mem_cons.mp h with h1 | h1
        · exact Or.inl h1
        · rcases ih c h1 with h2 | ⟨v, hv, hcv⟩
          · exact Or.inl h2
          · exact Or.inr ⟨v, by simp [hv], hcv⟩

theorem map_self_of_fix {f : Char → Char} :
    ∀ (l : List Char), (∀ c ∈ l, f c = c) → l.map f = l := by
  intro l
  induction l with
  | nil => intro _; rfl
  | cons c l ih =>
    intro h
    simp only [List.map_cons, h c (by simp), ih (fun x hx => h x (by simp [hx]))]

theorem normChars_fixed_by_lower (l : List Char) :
    (normChars l).map Char.toLower = normChars l := by
  apply map_self_of_fix
  intro c hc
  rcases mem_joinSp _ c hc with h | ⟨t, ht, hct⟩
  · subst h; decide
  · have h1 := splitAux_token_mem _ [] t ht c hct
    rcases h1 with h2 | h2
    · have h3 : c ∈ (l.map Char.toLower) := mem_pyStrip h2
      rcases List.mem_map.mp h3 with ⟨c0, _, hc0⟩
      rw [← hc0]
      exact toLower_idem c0
    · simp at h2

theorem normChars_idem (l : List Char) : normChars (normChars l) = normChars l := by
  have htok : ∀ t ∈ pySplit (pyStrip (l.map Char.toLower)),
      t ≠ [] ∧ ∀ c ∈ t, pyIsSpace c = false :=
    splitAux_tokens (pyStrip (l.map Char.toLower)) [] (by simp)
  show joinSp (pySplit (pyStrip ((normChars l).map Char.toLower))) = normChars l
  rw [normChars_fixed_by_lower,
    show normChars l = joinSp (pySplit (pyStrip (l.map Char.toLower))) from rfl,
    pySplit_pyStrip,
    pySplit_joinSp _ (fun t ht => (htok t ht).1) (fun t ht => (htok t ht).2)]

theorem normChars_map_toLower (l : List Char) :
    normChars (l.map Char.toLower) = normChars l := by
  show joinSp (pySplit (pyStrip ((l.map Char.toLower).map Char.toLower))) = normChars l
  have h2 : (l.map Char.toLower).map Char.toLower = l.map Char.toLower := by
    apply map_self_of_fix
    intro c hc
    rcases List.mem_map.mp hc with ⟨c0, _, rfl⟩
    exact toLower_idem c0
  rw [h2]
  rfl

theorem normalize_stringLower (s : String) :
    normalize (stringLower s) = normalize s := by
  show String.mk (normChars (s.data.map Char.toLower)) = String.mk (normChars s.data)
  rw [normChars_map_toLower]

/-! ### Data model

The pending collection `new_annotations.csv` has columns
`serial_no, proverb_telugu, proverb_english, meaning_english, keywords,
annotator, timestamp`; the repository `repository.csv` has
`proverb_telugu, proverb_english, meaning_english, keywords`
(`ensure_file` calls, `app.py` lines 28-35). -/

/-- A row of the pending collection (`new_annotations.csv`). -/
structure Row where
  serial_no : Nat
  proverb_telugu : String
  proverb_english : String
  meaning_english : String
  keywords : String
  annotator : String
  timestamp : String
deriving DecidableEq, Repr

/-- A row of the repository collection (`repository.csv`). -/
structure RepoRow where
  proverb_telugu : String
  proverb_english : String
  meaning_english : String
  keywords : String
deriving DecidableEq, Repr

/-- The external transliteration call `transliterate(text, TELUGU, ITRANS)`;
`none` models the call raising (caught by `to_roman`'s bare `except:`). -/
abbrev Translit := String → Option String

/-- `to_roman` of `app.py` (lines 48-52): transliterate and lowercase; if the
transliteration call raises, fall back to the raw text lowercased
(the spec's `to_comparable_form`). -/
def to_roman (translit : Translit) (text : String) : String :=
  match translit text with
  | some r => stringLower r
  | none => stringLower text

/-- An entry scanned by `verify`: a repository row or a pending row. -/
abbrev Entry := Sum RepoRow Row

/-- `row.get("proverb_telugu", "")` on either collection. -/
def Entry.tel : Entry → String
  | .inl r => r.proverb_telugu
  | .inr r => r.proverb_telugu

/-- `row.get("proverb_english", "")` on either collection. -/
def Entry.eng : Entry → String
  | .inl r => r.proverb_english
  | .inr r => r.proverb_english

/-- Result of the `/verify` route: `{"status": "exists", "data": row}` or
`{"status": "new", "roman": ...}`. -/
inductive VerifyResult where
  | dup (row : Entry)
  | new (roman : String)
deriving DecidableEq

/-- The inner row loop of `verify` (`app.py` lines 83-91): return the first
row whose comparable source-script key or plain-normalized English field
equals `key`. -/
def scanRows (translit : Translit) (key : String) : List Entry → Option Entry
  | [] => none
  | row :: rest =>
    if key = normalize (to_roman translit row.tel) ∨ key = normalize row.eng then
      some row
    else
      scanRows translit key rest

/-- `verify` of `app.py` (lines 76-96): compute the candidate key, scan the
repository collection then the pending collection, short-circuiting on the
first match; otherwise report "new" with the romanized candidate. -/
def verify (translit : Translit) (value : String)
    (repo : List RepoRow) (pending : List Row) : VerifyResult :=
  match scanRows translit (normalize (to_roman translit value)) (repo.map Sum.inl) with
  | some row => VerifyResult.dup row
  | none =>
    match scanRows translit (normalize (to_roman translit value)) (pending.map Sum.inr) with
    | some row => VerifyResult.dup row
    | none => VerifyResult.new (to_roman translit value)

/-- `next_serial` of `app.py` (lines 63-65): `1` if the pending collection is
empty, else `int(df["serial_no"].max()) + 1`; the column maximum is folded
with `Nat.max` (serial numbers are nonnegative). -/
def maxSerial (pending : List Row) : Nat :=
  (pending.map Row.serial_no).foldr Nat.max 0

def next_serial (pending : List Row) : Nat :=
  if pending.isEmpty then 1 else maxSerial pending + 1

/-- The form fields read by the POST branch of `annotate`. -/
structure Form where
  proverb_telugu : String
  proverb_english : String
  meaning_english : String
  keywords : String
deriving DecidableEq, Repr

/-- The `new_row` dict built by `annotate` (`app.py` lines 147-155). -/
def mkPendingRow (translit : Translit) (form : Form)
    (annotator timestamp : String) (pending : List Row) : Row :=
  { serial_no := next_serial pending
    proverb_telugu := form.proverb_telugu
    proverb_english := normalize (to_roman translit form.proverb_english)
    meaning_english := form.meaning_english
    keywords := form.keywords
    annotator := annotator
    timestamp := timestamp }

/-- The POST branch of `annotate` (`app.py` lines 144-158): concat the new
row onto the pending collection and write it back; the repository file is
not touched. Returns the two collections after the request. -/
def annotate_post (translit : Translit) (form : Form)
    (annotator timestamp : String)
    (pending : List Row) (repo : List RepoRow) : List Row × List RepoRow :=
  (pending ++ [mkPendingRow translit form annotator timestamp pending], repo)

/-- The approved-shape projection
`row[["proverb_telugu", "proverb_english", "meaning_english", "keywords"]]`
(`app.py` line 225). -/
def project (r : Row) : RepoRow :=
  { proverb_telugu := r.proverb_telugu
    proverb_english := r.proverb_english
    meaning_english := r.meaning_english
    keywords := r.keywords }

/-- The two collections after an `admin_approve` request, plus which branch
ran (`found = false` models the `row.empty` redirect, the spec's
`NotFoundError`). -/
structure ApproveResult where
  pending : List Row
  repo : List RepoRow
  found : Bool
deriving DecidableEq, Repr

/-- `admin_approve` of `app.py` (lines 212-234): select the pending rows with
the given serial number; if none, redirect without writing; otherwise append
their approved-shape projection to the repository and drop them from the
pending collection. -/
def admin_approve (serial_no : Nat)
    (pending : List Row) (repo : List RepoRow) : ApproveResult :=
  let row := pending.filter (fun r => r.serial_no == serial_no)
  if row.isEmpty then
    { pending := pending, repo := repo, found := false }
  else
    { pending := pending.filter (fun r => !(r.serial_no == serial_no))
      repo := repo ++ row.map project
      found := true }

/-! ### Operation lemmas -/

theorem option_match_or (o1 o2 : Option Entry) (roman : String) :
    (match o1 with
      | some row => VerifyResult.dup row
      | none =>
        match o2 with
        | some row => VerifyResult.dup row
        | none => VerifyResult.new roman) =
      (match o1.or o2 with
        | some row => VerifyResult.dup row
        | none => VerifyResult.new roman) := by
  cases o1 <;> cases o2 <;> rfl

theorem scanRows_eq_find (translit : Translit) (key : String) (l : List Entry) :
    scanRows translit key l =
      l.find? (fun row =>
        decide (key = normalize (to_roman translit row.tel) ∨ key = normalize row.eng)) := by
  induction l with
  | nil => rfl
  | cons row rest ih =>
    by_cases h : key = normalize (to_roman translit row.tel) ∨ key = normalize row.eng
    · rw [scanRows, if_pos h, List.find?_cons_of_pos _ (by simpa using h)]
    · rw [scanRows, if_neg h, List.find?_cons_of_neg _ (by simpa using h), ih]

theorem foldr_max_of_le {l : List Nat} {b : Nat} (h : ∀ x ∈ l, x ≤ b) :
    l.foldr Nat.max b = b := by
  induction l with
  | nil => rfl
  | cons a l ih =>
    rw [List.foldr_cons, ih (fun x hx => h x (by simp [hx]))]
    exact Nat.max_eq_right (h a (by simp))

theorem le_foldr_max {l : List Nat} {b : Nat} {x : Nat} (hx : x ∈ l) :
    x ≤ l.foldr Nat.max b := by
  induction l with
  | nil => simp at hx
  | cons a l ih =>
    rw [List.foldr_cons]
    rcases List.mem_cons.mp hx with h | h
    · subst h; exact Nat.le_max_left _ _
    · exact Nat.le_trans (ih h) (Nat.le_max_right _ _)

theorem foldr_max_zero_mem : ∀ (l : List Nat), l ≠ [] → l.foldr Nat.max 0 ∈ l := by
  intro l
  induction l with
  | nil => intro h; exact absurd rfl h
  | cons a l ih =>
    intro _
    rw [List.foldr_cons]
    cases l with
    | nil => simp
    | cons b m =>
      rcases Nat.le_total a ((b :: m).foldr Nat.max 0) with h | h
      · have hm : a.max ((b :: m).foldr Nat.max 0) = (b :: m).foldr Nat.max 0 :=
          Nat.max_eq_right h
        rw [hm]
        exact List.mem_cons_of_mem a (ih (by simp))
      · have hm : a.max ((b :: m).foldr Nat.max 0) = a := Nat.max_eq_left h
        rw [hm]
        simp

theorem admin_approve_no_match {serial : Nat} {pending : List Row} {repo : List RepoRow}
    (h : ∀ x ∈ pending, x.serial_no ≠ serial) :
    admin_approve serial pending repo =
      { pending := pending, repo := repo, found := false } := by
  unfold admin_approve
  rw [List.filter_eq_nil_iff.mpr (fun x hx => by simp [h x hx])]
  rfl

theorem admin_approve_pending_no_serial (serial : Nat) (pending : List Row)
    (repo : List RepoRow) :
    ∀ x ∈ (admin_approve serial pending repo).pending, x.serial_no ≠ serial := by
  intro x hx
  unfold admin_approve at hx
  by_cases hf : (pending.filter (fun r => r.serial_no == serial)).isEmpty
  · rw [if_pos hf] at hx
    have hnil : pending.filter (fun r => r.serial_no == serial) = [] :=
      List.isEmpty_iff.mp hf
    have := List.filter_eq_nil_iff.mp hnil x hx
    simpa using this
  · rw [if_neg hf] at hx
    have := (List.mem_filter.mp hx).2
    simpa using this

/-! ### Concrete fixtures used by counterexamples and witnesses

`translitFail` models the transliteration call raising on every input
(exercising `to_roman`'s `except:` branch); `translitId` models the library
passing non-Telugu input through unchanged; `translitKa` models the
documented ITRANS behaviour of mapping the Telugu letter to its
romanization; `translitMerge` maps both Unicode forms of an accented
letter to one output. -/

def translitFail : Translit := fun _ => none

def translitId : Translit := fun s => some s

def translitKa : Translit := fun s => if s = "క" then some "ka" else some s

def translitMerge : Translit := fun s => if s = "é" then some "é" else some s

def emptyForm : Form :=
  { proverb_telugu := "", proverb_english := "", meaning_english := "", keywords := "" }

def englishForm : Form :=
  { proverb_telugu := "తెలుగు", proverb_english := "  Six   Months "
    meaning_english := "m", keywords := "k" }

def rowOne : Row :=
  { serial_no := 1, proverb_telugu := "ఒకటి", proverb_english := "one"
    meaning_english := "m1", keywords := "k1", annotator := "alice", timestamp := "t1" }

def rowFive : Row :=
  { serial_no := 5, proverb_telugu := "ఐదు", proverb_english := "five"
    meaning_english := "m5", keywords := "k5", annotator := "bob", timestamp := "t2" }

/-! ### Claims -/

/-- Claim C1: `verify` computes the key `normalize(to_roman(value))`, scans
the repository collection and then the pending collection, matches a row if
the key equals either the row's comparable source-script key or its
plain-normalized English field, short-circuits on the first match (so a
repository match wins over a pending one), and otherwise answers "new"
with the romanized candidate. -/
theorem verify_repo_first_either_key (translit : Translit) (value : String)
    (repo : List RepoRow) (pending : List Row) :
    verify translit value repo pending =
      match (repo.map Sum.inl ++ pending.map Sum.inr).find? (fun row =>
          decide (normalize (to_roman translit value) = normalize (to_roman translit row.tel)
            ∨ normalize (to_roman translit value) = normalize row.eng)) with
      | some row => VerifyResult.dup row
      | none => VerifyResult.new (to_roman translit value) := by
  unfold verify
  rw [scanRows_eq_find, scanRows_eq_find, option_match_or, ← List.find?_append]
  rfl

/-- Claim C2 counterexample: the POST branch of `annotate` performs no
validation at all; a submission whose `source_text` is empty is appended
anyway, so "no row appended, pending collection unchanged" is false. -/
theorem annotate_empty_source_cex :
    emptyForm.proverb_telugu = "" ∧
    (annotate_post translitFail emptyForm "alice" "2024-01-01 00:00:00" [] []).1
      ≠ ([] : List Row) := by
  refine ⟨rfl, ?_⟩
  decide

/-- Claim C2 (amended): the code performs no emptiness validation and no
`ValidationError` exists; a submission with empty `source_text` still
succeeds, appending exactly one row to the pending collection (changing it)
and leaving the repository untouched. -/
theorem annotate_empty_source_still_appends (translit : Translit) (form : Form)
    (annotator timestamp : String) (pending : List Row) (repo : List RepoRow)
    (h : form.proverb_telugu = "") :
    (annotate_post translit form annotator timestamp pending repo).1.length
        = pending.length + 1 ∧
    (annotate_post translit form annotator timestamp pending repo).2 = repo ∧
    (annotate_post translit form annotator timestamp pending repo).1 ≠ pending := by
  refine ⟨by simp [annotate_post], rfl, ?_⟩
  intro hEq
  have hlen := congrArg List.length hEq
  simp [annotate_post] at hlen

/-- Witness for the amended C2 at a concrete input. -/
theorem annotate_empty_source_still_appends_witness :
    (annotate_post translitFail emptyForm "alice" "t0" [] []).1.length
        = ([] : List Row).length + 1 ∧
    (annotate_post translitFail emptyForm "alice" "t0" [] []).2 = ([] : List RepoRow) ∧
    (annotate_post translitFail emptyForm "alice" "t0" [] []).1 ≠ ([] : List Row) :=
  annotate_empty_source_still_appends translitFail emptyForm "alice" "t0" [] [] rfl

/-- Claim C3 counterexample: on a transliteration failure `to_roman` returns
`text.lower()`, the raw text lowercased, not `normalize_plain(text)`: the
internal whitespace run in `"A  B"` is not collapsed. -/
theorem to_roman_fallback_cex :
    translitFail "A  B" = none ∧ to_roman translitFail "A  B" ≠ normalize "A  B" := by
  refine ⟨rfl, ?_⟩
  decide

/-- Claim C3 (amended): `to_roman` is total by construction; on
transliteration failure it returns the raw text lowercased rather than
raising, and since every caller passes the result through `normalize`, the
resulting comparison key still equals `normalize` of the raw text. -/
theorem to_roman_fallback_lower (translit : Translit) (t : String)
    (h : translit t = none) :
    to_roman translit t = stringLower t ∧
    normalize (to_roman translit t) = normalize t := by
  constructor
  · simp only [to_roman, h]
  · simp only [to_roman, h]
    exact normalize_stringLower t

/-- Witness for the amended C3 at a concrete input. -/
theorem to_roman_fallback_lower_witness :
    to_roman translitFail "  Foo " = stringLower "  Foo " ∧
    normalize (to_roman translitFail "  Foo ") = normalize "  Foo " :=
  to_roman_fallback_lower translitFail "  Foo " rfl

/-- Claim C4: `next_serial` returns 1 on the empty pending collection and
otherwise the column maximum plus one: every stored serial is below it, for
a nonempty collection it is some stored serial plus one, and appending a
record whose serial dominates the collection makes the next allocation that
serial plus one. -/
theorem next_serial_spec :
    next_serial ([] : List Row) = 1 ∧
    (∀ pending : List Row, ∀ x ∈ pending, x.serial_no < next_serial pending) ∧
    (∀ pending : List Row, pending ≠ [] →
      ∃ x ∈ pending, next_serial pending = x.serial_no + 1) ∧
    (∀ (pending : List Row) (r : Row),
      (∀ x ∈ pending, x.serial_no ≤ r.serial_no) →
      next_serial (pending ++ [r]) = r.serial_no + 1) := by
  refine ⟨rfl, ?_, ?_, ?_⟩
  · intro pending x hx
    have hne : pending ≠ [] := List.ne_nil_of_mem hx
    rw [next_serial, if_neg (by simp [List.isEmpty_iff, hne])]
    have hle : x.serial_no ≤ maxSerial pending :=
      le_foldr_max (List.mem_map_of_mem Row.serial_no hx)
    omega
  · intro pending hne
    rw [next_serial, if_neg (by simp [List.isEmpty_iff, hne])]
    have hmem : maxSerial pending ∈ pending.map Row.serial_no :=
      foldr_max_zero_mem _ (by simpa using hne)
    rcases List.mem_map.mp hmem with ⟨x, hx, hxe⟩
    exact ⟨x, hx, by rw [hxe]⟩
  · intro pending r h
    rw [next_serial, if_neg (by simp)]
    have hmax : maxSerial (pending ++ [r]) = r.serial_no := by
      rw [maxSerial, List.map_append, List.foldr_append]
      show (pending.map Row.serial_no).foldr Nat.max (Nat.max r.serial_no 0) = r.serial_no
      have hz : Nat.max r.serial_no 0 = r.serial_no := Nat.max_eq_left (Nat.zero_le _)
      rw [hz]
      exact foldr_max_of_le (fun x hx => by
        rcases List.mem_map.mp hx with ⟨y, hy, hye⟩
        rw [← hye]
        exact h y hy)
    rw [hmax]

/-- Witness for C4 at concrete inputs. -/
theorem next_serial_spec_witness :
    next_serial ([rowOne] ++ [rowFive]) = rowFive.serial_no + 1 ∧
    (∃ x ∈ [rowOne], next_serial [rowOne] = x.serial_no + 1) :=
  ⟨next_serial_spec.2.2.2 [rowOne] rowFive (by decide),
    next_serial_spec.2.2.1 [rowOne] (by decide)⟩

/-- Claim C5: when exactly one pending row carries the requested serial
number, `admin_approve` appends exactly that row's approved-shape projection
(the four content fields, with serial, contributor and timestamp stripped)
to the repository and removes exactly that row from the pending collection,
preserving all other rows of both collections in order. -/
theorem admin_approve_moves_unique_row (serial : Nat) (l1 : List Row) (r : Row)
    (l2 : List Row) (repo : List RepoRow)
    (hr : r.serial_no = serial)
    (h1 : ∀ x ∈ l1, x.serial_no ≠ serial)
    (h2 : ∀ x ∈ l2, x.serial_no ≠ serial) :
    admin_approve serial (l1 ++ r :: l2) repo =
      { pending := l1 ++ l2, repo := repo ++ [project r], found := true } := by
  have hsel : (l1 ++ r :: l2).filter (fun x => x.serial_no == serial) = [r] := by
    rw [List.filter_append, List.filter_cons_of_pos (by simp [hr])]
    rw [List.filter_eq_nil_iff.mpr (fun x hx => by simp [h1 x hx]),
      List.filter_eq_nil_iff.mpr (fun x hx => by simp [h2 x hx])]
    rfl
  have hrem : (l1 ++ r :: l2).filter (fun x => !(x.serial_no == serial)) = l1 ++ l2 := by
    rw [List.filter_append, List.filter_cons_of_neg (by simp [hr])]
    rw [List.filter_eq_self.mpr (fun x hx => by simp [h1 x hx]),
      List.filter_eq_self.mpr (fun x hx => by simp [h2 x hx])]
  unfold admin_approve
  rw [hsel, hrem]
  rfl

/-- Witness for C5 at a concrete input. -/
theorem admin_approve_moves_unique_row_witness :
    admin_approve 5 ([rowOne] ++ rowFive :: []) [] =
      { pending := [rowOne] ++ [], repo := [] ++ [project rowFive], found := true } :=
  admin_approve_moves_unique_row 5 [rowOne] rowFive [] [] (by decide) (by decide)
    (by decide)

/-- Claim C6: approving a serial number absent from the pending collection
takes the `row.empty` branch (the spec's `NotFoundError`) and writes
nothing; moreover a second approval of the same serial right after any
approval always takes that branch, so no duplicate repository record can
arise from re-approval. -/
theorem admin_approve_missing_serial_noop (serial : Nat) (pending : List Row)
    (repo : List RepoRow) :
    ((∀ x ∈ pending, x.serial_no ≠ serial) →
      admin_approve serial pending repo =
        { pending := pending, repo := repo, found := false }) ∧
    admin_approve serial (admin_approve serial pending repo).pending
        (admin_approve serial pending repo).repo =
      { pending := (admin_approve serial pending repo).pending
        repo := (admin_approve serial pending repo).repo
        found := false } := by
  refine ⟨fun h => admin_approve_no_match h, ?_⟩
  exact admin_approve_no_match (admin_approve_pending_no_serial serial pending repo)

/-- Witness for C6 at a concrete input. -/
theorem admin_approve_missing_serial_noop_witness :
    admin_approve 9 [rowOne] [] =
      { pending := [rowOne], repo := [], found := false } :=
  (admin_approve_missing_serial_noop 9 [rowOne] []).1 (by decide)

/-- Claim C7 counterexample: the stored `proverb_english` is
`normalize(to_roman(submitted))`, not `normalize(submitted)`: the English
field is run through the Telugu transliterator first, which rewrites any
Telugu characters in it (here the ITRANS mapping of the letter to "ka"),
so the stored value differs from the plain normalization of the input. -/
theorem stored_english_not_plain_normalize_cex :
    (mkPendingRow translitKa
        { proverb_telugu := "", proverb_english := "క"
          meaning_english := "", keywords := "" }
        "a" "t" []).proverb_english ≠ normalize "క" := by
  decide

/-- Claim C7 (amended): the stored `translated_text` equals
`normalize(to_roman(submitted))`; whenever the transliterator passes the
submitted English text through unchanged or fails (the typical case for
Latin-script input), this coincides with `normalize` of the submitted
text. -/
theorem stored_english_normalized_via_roman (translit : Translit) (form : Form)
    (annotator timestamp : String) (pending : List Row)
    (h : translit form.proverb_english = none ∨
      translit form.proverb_english = some form.proverb_english) :
    (mkPendingRow translit form annotator timestamp pending).proverb_english
        = normalize (to_roman translit form.proverb_english) ∧
    (mkPendingRow translit form annotator timestamp pending).proverb_english
        = normalize form.proverb_english := by
  refine ⟨rfl, ?_⟩
  show normalize (to_roman translit form.proverb_english) = normalize form.proverb_english
  rcases h with h | h <;> simp only [to_roman, h] <;> exact normalize_stringLower _

/-- Witness for the amended C7 at a concrete input. -/
theorem stored_english_normalized_via_roman_witness :
    (mkPendingRow translitFail englishForm "a" "t" []).proverb_english
        = normalize (to_roman translitFail englishForm.proverb_english) ∧
    (mkPendingRow translitFail englishForm "a" "t" []).proverb_english
        = normalize englishForm.proverb_english :=
  stored_english_normalized_via_roman translitFail englishForm "a" "t" [] (Or.inl rfl)

/-- Claim C8 counterexample: the code applies no Unicode normalization
before transliteration; with the transliterator passing unsupported input
through, the composed and the decomposed spelling of the same accented
letter (visually identical, NFC-equivalent) yield different comparison
keys. -/
theorem no_nfc_normalization_cex :
    ("é" : String).data = ['é'] ∧
    ("é" : String).data = ['e', '́'] ∧
    normalize (to_roman translitId "é") ≠ normalize (to_roman translitId "é") := by
  refine ⟨rfl, rfl, ?_⟩
  decide

/-- Claim C8 (amended): `to_roman` hands the raw input to the transliterator
with no prior NFC normalization; two decomposition-variant strings get equal
comparison keys exactly when the transliterator itself maps them to the same
output. -/
theorem comparable_key_eq_of_translit_eq (translit : Translit) (s1 s2 r : String)
    (h1 : translit s1 = some r) (h2 : translit s2 = some r) :
    normalize (to_roman translit s1) = normalize (to_roman translit s2) := by
  simp only [to_roman, h1, h2]

/-- Witness for the amended C8 at a concrete input. -/
theorem comparable_key_eq_of_translit_eq_witness :
    normalize (to_roman translitMerge "é") = normalize (to_roman translitMerge "é") :=
  comparable_key_eq_of_translit_eq translitMerge "é" "é" "é" (by decide) (by decide)

/-- Claim C9: `normalize` is idempotent. -/
theorem normalize_idempotent (s : String) :
    normalize (normalize s) = normalize s := by
  show String.mk (normChars (normalize s).data) = String.mk (normChars s.data)
  rw [show (normalize s).data = normChars s.data from rfl, normChars_idem]

/-- Claim C10: the POST branch of `annotate` never touches the repository
collection, and the pending collection afterwards is exactly the old one
with the single new row appended at the end (existing rows and order
preserved). -/
theorem annotate_appends_one_frame (translit : Translit) (form : Form)
    (annotator timestamp : String) (pending : List Row) (repo : List RepoRow) :
    (annotate_post translit form annotator timestamp pending repo).2 = repo ∧
    (annotate_post translit form annotator timestamp pending repo).1 =
      pending ++ [mkPendingRow translit form annotator timestamp pending] ∧
    (annotate_post translit form annotator timestamp pending repo).1.take pending.length
        = pending ∧
    (annotate_post translit form annotator timestamp pending repo).1.length
        = pending.length + 1 := by
  refine ⟨rfl, rfl, ?_, by simp [annotate_post]⟩
  show (pending ++ [mkPendingRow translit form annotator timestamp pending]).take
      pending.length = pending
  exact List.take_left pending _

end App
